import Mathlib

/-! Verification of the ProtoCI build orchestrator (`build2.py`).

The development shallowly embeds the parts of `build2.py` that the claims
are about: the dependency graph model (a networkx `DiGraph` whose stored
edge direction is package → dependency), the planner `build_order`, the
dirty-node query `dirty`, the closure walk `successors_iter` and the
splitter `split_graph`, the batch partitioner `coalesce`, and the build
executor `make_deps` together with the process wrapper `PopenWrapper`
(modelled by `popenWrapper`) and the `__main__` exit-status tail.

External effects (spawning processes, the filesystem) are modelled by
explicit environment parameters: the behaviour of one external build
invocation is a `ProcBehavior` value, and `make_deps` receives the
invocation outcome map as a function argument.
-/

/-- Build metadata attached to a recipe node by `describe_meta`:
build number, build requirements (dependency name → version constraint
string) and version. -/
structure MetaInfo where
  build : Nat
  depends : List (String × String)
  version : String
deriving DecidableEq, Repr

/-- The attribute dictionary attached by `construct_graph`'s
`g.add_node(name, meta=..., recipe=..., dirty=...)`.  Nodes that were only
created as dependency targets by `g.add_edge` have no such entry. -/
structure NodeAttrs where
  meta : MetaInfo
  recipe : String
  dirty : Bool
deriving DecidableEq, Repr

/-- A networkx `DiGraph` as built by `construct_graph`: node names,
directed edges stored as package → dependency, and the per-node attribute
dictionaries (present exactly for the nodes added via `add_node`). -/
structure DiGraph where
  nodes : List String
  edges : List (String × String)
  attrs : List (String × NodeAttrs)
deriving DecidableEq, Repr

/-- Well-formedness of a graph value: node names are unique (networkx node
dictionaries are keyed by name) and every stored edge joins two stored
nodes (`add_edge` creates both endpoints). -/
def WF (g : DiGraph) : Prop :=
  g.nodes.Nodup ∧ ∀ e ∈ g.edges, e.1 ∈ g.nodes ∧ e.2 ∈ g.nodes

/-- The stored edge relation of a graph (package → dependency). -/
def EdgeRel (g : DiGraph) (a b : String) : Prop := (a, b) ∈ g.edges

instance (g : DiGraph) : DecidableRel (EdgeRel g) :=
  fun a b => inferInstanceAs (Decidable ((a, b) ∈ g.edges))

/-- Model of `g.successors(s)`: the targets of the out-edges of `s`. -/
def successors (g : DiGraph) (s : String) : List String :=
  (g.edges.filter (fun e => e.1 == s)).map (fun e => e.2)

/-- Model of `g.edges_iter(p)` on a directed graph: the out-edges of `p`. -/
def outEdges (g : DiGraph) (p : String) : List (String × String) :=
  g.edges.filter (fun e => e.1 == p)

/-- Model of `graph.subgraph(bunch)`: the nodes of the graph that lie in `bunch`
together with the induced edges.  Attribute dictionaries are shared with
the original graph, as in networkx. -/
def subgraph (g : DiGraph) (bunch : List String) : DiGraph :=
  { nodes := g.nodes.filter (fun n => bunch.contains n)
    edges := g.edges.filter (fun e => bunch.contains e.1 && bunch.contains e.2)
    attrs := g.attrs }

/-- Model of `g.add_node(n)`: a no-op when the node already exists. -/
def addNode (g : DiGraph) (n : String) : DiGraph :=
  if g.nodes.contains n then g else { g with nodes := g.nodes ++ [n] }

/-- Model of `g.add_edge(e)`: creates missing endpoints, then stores the edge
(adjacency dictionaries make a repeated `add_edge` a no-op). -/
def addEdge (g : DiGraph) (e : String × String) : DiGraph :=
  let g := addNode (addNode g e.1) e.2
  if g.edges.contains e then g else { g with edges := g.edges ++ [e] }

/-- The `while _level > 0` loop of `build_order`: each round adds, for
every package of the current frontier, all of its out-edges (and thereby
its direct dependencies as nodes) to the temporary graph, and advances the
frontier to the set of those dependencies. -/
def expandLevels (graph : DiGraph) : DiGraph → List String → Nat → DiGraph
  | tmp, _, 0 => tmp
  | tmp, currlevel, l + 1 =>
      let newcurr := (currlevel.map (fun p => successors graph p)).flatten
      let tmp := currlevel.foldl (fun t p => (outEdges graph p).foldl addEdge t) tmp
      expandLevels graph tmp newcurr l

/-- Readiness test of Kahn's algorithm: a node is ready when no still
remaining node has a stored edge pointing at it. -/
def isReady (edges : List (String × String)) (remaining : List String) (n : String) : Bool :=
  edges.all (fun e => !(e.2 == n && remaining.contains e.1))

/-- Kahn's algorithm, fuelled by the node count.  `nx.topological_sort`
(networkx 1.x, DFS based) returns one topological order of the nodes and
raises `NetworkXUnfeasible` exactly when the graph has a directed cycle;
both behaviours are modelled by the `Option` result: `none` models the
raised cycle error. -/
def kahn (edges : List (String × String)) : Nat → List String → Option (List String)
  | 0, remaining => if remaining.isEmpty then some [] else none
  | fuel + 1, remaining =>
      if remaining.isEmpty then some []
      else
        match remaining.find? (isReady edges remaining) with
        | none => none
        | some n => (kahn edges fuel (remaining.erase n)).map (fun l => n :: l)

/-- Model of `nx.topological_sort(g)`: `some order` with every stored edge's source
before its target, or `none` on a cycle. -/
def topological_sort (g : DiGraph) : Option (List String) :=
  kahn g.edges g.nodes.length g.nodes

/-- Model of `build_order(graph, packages, level)`: builds the temporary graph of
relevant nodes (the whole graph for `packages = None`, otherwise the
induced subgraph on `packages` expanded by `level` rounds of direct
dependencies) and returns it with its reversed topological sort
(`nx.topological_sort(tmp_global, reverse=True)`).  The node-data copy
loop of the source is a no-op here because the attribute dictionaries are
shared. -/
def build_order (graph : DiGraph) (packages : Option (List String)) (level : Nat) :
    DiGraph × Option (List String) :=
  let tmp :=
    match packages with
    | none => subgraph graph graph.nodes
    | some pkgs => expandLevels graph (subgraph graph pkgs) pkgs level
  (tmp, (topological_sort tmp).map List.reverse)

/-- Model of `getattr(n, 'dirty', False)` where `n` is the node *name*, a Python
`str`.  A string object carries no `dirty` attribute, so the lookup always
produces the default `False`; the per-node `dirty` flag stored in the
graph's attribute dictionary is never consulted. -/
def strGetattrDirty (_n : String) : Bool := false

/-- Model of `dirty(graph)`: filters the node names by `getattr(n, 'dirty', False)
== True`. -/
def dirty (graph : DiGraph) : List String :=
  graph.nodes.filter (fun n => strGetattrDirty n == true)

/-- Set insertion: `nodes.add(x)` on a Python set, keeping first-insertion
order in the list model. -/
def insertSet (l : List String) (x : String) : List String :=
  if l.contains x then l else l ++ [x]

/-- Fuelled body of `successors_iter(g, s, nodes)`: for each successor of
`s`, add it to the shared accumulator set and recurse from it.  (The inner
`for` loop of the source re-adds the returned set's members to the same
set, a no-op.)  The source recursion is unbounded and terminates exactly
on acyclic graphs; a fuel of `g.nodes.length` is proved sufficient below
to collect every node reachable by one or more edges. -/
def succIter (g : DiGraph) : Nat → String → List String → List String
  | 0, _, nodes => nodes
  | fuel + 1, s, nodes =>
      (successors g s).foldl (fun acc s2 => succIter g fuel s2 (insertSet acc s2)) nodes

/-- Model of `successors_iter(g, s, nodes)` with the canonical fuel. -/
def successors_iter (g : DiGraph) (s : String) (nodes : List String) : List String :=
  succIter g g.nodes.length s nodes

/-- One step of the `for hi_level in nx.topological_sort(g)` loop of
`split_graph`: skip covered nodes; otherwise record the closure of the
representative, ordered by descending position in the topological order
(`sorted(topo_order, key=lambda x: -x[1])`), and mark the closure and the
representative as covered. -/
def splitStep (g : DiGraph) (toposort : List String)
    (st : List String × List (String × List String)) (hi_level : String) :
    List String × List (String × List String) :=
  if st.1.contains hi_level then st
  else
    let succ := successors_iter g hi_level []
    let covered := succ.foldl (fun c s => insertSet c s) st.1
    let covered := insertSet covered hi_level
    let topo_order := succ.map (fun s => (s, toposort.indexOf s))
    let succ_order := topo_order.insertionSort (fun a b => b.2 ≤ a.2)
    (covered, st.2 ++ [(hi_level, succ_order.map (fun x => x.1))])

/-- Model of `split_graph(g, targetnum, split_file)` up to and including the
construction of `hi_level_builds` (the JSON file write and the unused
`degrees` computation are external/no-op; the final `coalesce` call is
modelled separately by `coalesce`).  `none` models the cycle error raised
by the initial topological sort. -/
def split_graph_builds (g : DiGraph) : Option (List (String × List String)) :=
  match topological_sort g with
  | none => none
  | some toposort => some ((toposort.foldl (splitStep g toposort) ([], [])).2)

/-- Dictionary lookup with the `defaultdict(lambda: [])` default. -/
def lookupD (m : List (String × List String)) (k : String) : List String :=
  (m.lookup k).getD []

/-- Assignment `m[k] = v` on an insertion-ordered dictionary. -/
def updateKey (m : List (String × List String)) (k : String) (v : List String) :
    List (String × List String) :=
  if (m.lookup k).isSome then m.map (fun kv => if kv.1 == k then (kv.1, v) else kv)
  else m ++ [(k, v)]

/-- Model of the statement `coalesced[key] += [gi for gi in g if gi not in coalesced[key] and gi != key]`:
the comprehension filters against the accumulated list as it stood before
this statement, so a duplicate inside `g` itself survives. -/
def mergeOne (cur : List String) (key : String) (g : List String) : List String :=
  cur ++ g.filter (fun gi => !cur.contains gi && !(gi == key))

/-- The `for g in group` flush loop of `coalesce`, merging every group of
the batch into the entry of `key`.  The source's `if g == key: continue`
compares a list with a string and is therefore never taken; it is omitted
here. -/
def flushBatch (cur : List String) (key : String) (batch : List (List String)) : List String :=
  batch.foldl (fun c g => mergeOne c key g) cur

/-- The main loop of `coalesce` over the size-sorted keys, carrying the
output dictionary, the pending batch and the most recent key, followed by
the trailing `if group:` flush under the last key. -/
def coalesceAux (hi : List (String × List String)) (targetnum : Nat) :
    List (String × List String) → List (List String) → String → List (String × Nat) →
      List (String × List String)
  | coalesced, group, key, [] =>
      if group.isEmpty then coalesced
      else updateKey coalesced key (flushBatch (lookupD coalesced key) key group)
  | coalesced, group, _, (key, _count) :: rest =>
      let group := group ++ [lookupD hi key ++ [key]]
      if targetnum ≤ (group.map List.length).sum then
        coalesceAux hi targetnum
          (updateKey coalesced key (flushBatch (lookupD coalesced key) key group)) [] key rest
      else
        coalesceAux hi targetnum coalesced group key rest

/-- Model of `coalesce(hi_level_builds, targetnum)`: the input dictionary is an
insertion-ordered association list; keys are processed in ascending order
of closure size (`sorted(counts, key=lambda x: x[1])`, a stable sort,
modelled by the stable `insertionSort` on the size component). -/
def coalesce (hi_level_builds : List (String × List String)) (targetnum : Nat) :
    List (String × List String) :=
  let counts := hi_level_builds.map (fun kv => (kv.1, kv.2.length))
  coalesceAux hi_level_builds targetnum [] [] ""
    (counts.insertionSort (fun a b => a.2 ≤ b.2))

/-- All names mentioned by a closure dictionary: every key followed by its
value list.  Applied to an input of `coalesce` it collects the keys and
closure members; applied to the output it collects the group keys and
group member lists. -/
def namesOf (m : List (String × List String)) : List String :=
  (m.map (fun kv => kv.1 :: kv.2)).flatten

/-- The names of the groups still to be processed by `coalesceAux`: for
each pending `(key, count)` pair, `hi[key] + [key]`. -/
def remNames (hi : List (String × List String)) (remaining : List (String × Nat)) :
    List String :=
  (remaining.map (fun kc => lookupD hi kc.1 ++ [kc.1])).flatten

/-- The record kept by `PopenWrapper` for one finished build invocation:
wall-clock time, peak resident and virtual memory of the process tree,
the exit status, and the peak disk delta. -/
structure PStats where
  elapsed : Nat
  rss : Nat
  vms : Nat
  returncode : Int
  disk : Nat
deriving DecidableEq, Repr

/-- The exceptions that the `try` block of `make_deps` handles. -/
inductive PkgExcept where
  | calledProcessError
  | keyboardInterrupt
deriving DecidableEq, Repr

/-- What one `make_pkg` call does, as observed by `make_deps`: return a
value (the wrapper record, or `None` in dry mode) or raise. -/
inductive InvokeOutcome where
  | ok (result : Option PStats)
  | exc (e : PkgExcept)
deriving DecidableEq, Repr

/-- The externally determined behaviour of one spawned build process:
either it runs to completion with the recorded statistics (including its
exit status), or the user interrupts it. -/
inductive ProcBehavior where
  | runs (stats : PStats)
  | interrupt
deriving DecidableEq, Repr

/-- Model of `PopenWrapper(args)`: records the statistics and the exit status of
the child.  A non-zero exit status raises nothing — `psutil.Popen` never
raises `CalledProcessError` — so the only exception that can escape is the
re-raised `KeyboardInterrupt`. -/
def popenWrapper (b : ProcBehavior) : InvokeOutcome :=
  match b with
  | .runs st => .ok (some st)
  | .interrupt => .exc .keyboardInterrupt

/-- Model of `make_pkg(package, dry, extra_args)`: in dry mode no process is
spawned and `None` is returned; otherwise the result is the
`PopenWrapper` record.  The source's `except CalledProcessError` clause
around the spawn can never fire, since `popenWrapper` does not raise it. -/
def make_pkg (behavior : String → ProcBehavior) (dry : Bool) (pkg : String) : InvokeOutcome :=
  if dry then .ok none else popenWrapper (behavior pkg)

/-- A node is buildable when its attribute dictionary carries recipe
metadata (`g.node[pkg].get('meta')` is truthy). -/
def buildable (g : DiGraph) (n : String) : Bool :=
  (g.attrs.lookup n).isSome

/-- Model of `build_times[pkg] = v` on the pre-populated dictionary. -/
def setTimes (times : List (String × Option PStats)) (pkg : String) (v : Option PStats) :
    List (String × Option PStats) :=
  times.map (fun kv => if kv.1 == pkg then (kv.1, v) else kv)

/-- The value returned by `make_deps`: the `except KeyboardInterrupt`
path returns only the failed set, every completed run returns the
`(succeeded, failed, build_times)` triple. -/
inductive MakeDepsResult where
  | interrupted (failed : List String)
  | completed (succeeded : List String) (failed : List String)
      (build_times : List (String × Option PStats))
deriving DecidableEq, Repr

/-- The `for pkg in order` loop of `make_deps`.  Per package: if *any*
package of the whole order is already in the failed set, auto-fail this
package (the failed-dependency report printed there has no effect on the
result); otherwise invoke the build, record the result on success, add the
package to the failed set on `CalledProcessError`, and on
`KeyboardInterrupt` return just the failed set immediately. -/
def buildLoop (env : String → InvokeOutcome) (order : List String) :
    List String → List String → List (String × Option PStats) → MakeDepsResult
  | [], failed, build_times =>
      .completed (order.filter (fun p => !failed.contains p)) failed build_times
  | pkg :: rest, failed, build_times =>
      if order.any (fun p => failed.contains p) then
        buildLoop env order rest (insertSet failed pkg) build_times
      else
        match env pkg with
        | .ok result => buildLoop env order rest failed (setTimes build_times pkg result)
        | .exc .calledProcessError => buildLoop env order rest (insertSet failed pkg) build_times
        | .exc .keyboardInterrupt => .interrupted failed

/-- Model of `make_deps(graph, package, ...)`: plan the order with `build_order`
(`none` models the propagated cycle error), drop the packages without
recipe metadata, and run the build loop with the invocation outcome map
`env`. -/
def make_deps (graph : DiGraph) (package : Option (List String))
    (env : String → InvokeOutcome) (level : Nat) : Option MakeDepsResult :=
  ((build_order graph package level).2).map (fun ord =>
    let order := ord.filter (fun pkg => buildable graph pkg)
    buildLoop env order order [] (order.map (fun x => (x, none))))

/-- Composition of `make_deps` with the invocation layer instantiated by the real
`make_pkg` ∘ `PopenWrapper` chain over the external process behaviour. -/
def make_deps_run (graph : DiGraph) (package : Option (List String))
    (behavior : String → ProcBehavior) (dry : Bool) (level : Nat) : Option MakeDepsResult :=
  make_deps graph package (make_pkg behavior dry) level

/-- The failed set carried by either form of the result. -/
def failedSet : MakeDepsResult → List String
  | .interrupted failed => failed
  | .completed _ failed _ => failed

/-- Whether a result has the shape of a completed run's report triple. -/
def isCompletedShape : MakeDepsResult → Bool
  | .completed _ _ _ => true
  | .interrupted _ => false

/-- The declared build dependencies of a node
(`g.node[pkg]['meta']['depends'].keys()`). -/
def dependsOf (g : DiGraph) (n : String) : List String :=
  match g.attrs.lookup n with
  | some a => a.meta.depends.map (fun d => d.1)
  | none => []

/-- The exit status of the `__main__` build path after `make_deps`
returns.  A completed run reaches `sys.exit(len(fail))` only if the
summary loop survives: `max(i.rss, r)` on a `None` entry of `build_times`
(every failed, skipped or dry-run package) raises `AttributeError`, and
the uncaught exception makes the interpreter exit with status 1.  An
interrupted run returns a bare set where a triple is unpacked, which also
raises, exiting with status 1. -/
def mainBuildExit (res : MakeDepsResult) : Nat :=
  match res with
  | .interrupted _ => 1
  | .completed _ fail times =>
      if times.any (fun kv => kv.2.isNone) then 1
      else fail.length

/-- A directed cycle: a chain of stored edges from `x` through `p` back to
`x`. -/
def IsCycle (g : DiGraph) (x : String) (p : List String) : Prop :=
  List.Chain (EdgeRel g) x (p ++ [x])

instance (g : DiGraph) : Decidable (WF g) :=
  inferInstanceAs (Decidable (g.nodes.Nodup ∧ ∀ e ∈ g.edges, e.1 ∈ g.nodes ∧ e.2 ∈ g.nodes))

/-- Executable edge-chain test, used to discharge concrete cycle and
reachability facts by evaluation. -/
def chainB (g : DiGraph) : String → List String → Bool
  | _, [] => true
  | x, y :: l => g.edges.contains (x, y) && chainB g y l

/-- A graph with no directed cycle. -/
def Acyclic (g : DiGraph) : Prop := ¬ ∃ x p, IsCycle g x p

/-- Reachability: `t` is reachable from `s` along one or more stored edges. -/
def Reachable1 (g : DiGraph) (s t : String) : Prop :=
  ∃ p, List.Chain (EdgeRel g) s (p ++ [t])

/-- Recipe metadata for the concrete example graphs. -/
def attrsWith (deps : List (String × String)) : NodeAttrs :=
  { meta := { build := 0, depends := deps, version := "1" }, recipe := "r", dirty := false }

/-- Example statistics of a successful invocation (exit status 0). -/
def stOk : PStats := { elapsed := 3, rss := 10, vms := 20, returncode := 0, disk := 5 }

/-- Example statistics of an invocation that exits with status 1. -/
def stFail : PStats := { elapsed := 5, rss := 100, vms := 200, returncode := 1, disk := 50 }

/-- Two buildable nodes where `a` depends on `b`. -/
def gC1 : DiGraph :=
  { nodes := ["b", "a"]
    edges := [("a", "b")]
    attrs := [("a", attrsWith [("b", "")]), ("b", attrsWith [])] }

/-- A two-node dependency cycle. -/
def gCyc : DiGraph :=
  { nodes := ["a", "b"]
    edges := [("a", "b"), ("b", "a")]
    attrs := [("a", attrsWith [("b", "")]), ("b", attrsWith [("a", "")])] }

/-- Three buildable, mutually independent nodes; the planner orders them
`["A", "B", "C"]`, and neither `B` nor `C` declares any dependency. -/
def gABC : DiGraph :=
  { nodes := ["C", "B", "A"]
    edges := []
    attrs := [("A", attrsWith []), ("B", attrsWith []), ("C", attrsWith [])] }

/-- One buildable node with no dependencies. -/
def gOne : DiGraph :=
  { nodes := ["A"]
    edges := []
    attrs := [("A", attrsWith [])] }

/-- Two buildable, independent nodes; the planner orders them
`["A", "B"]`. -/
def gTwo : DiGraph :=
  { nodes := ["B", "A"]
    edges := []
    attrs := [("A", attrsWith []), ("B", attrsWith [])] }

/-- Invocation outcomes in which building `A` raises
`CalledProcessError` and every other build returns normally. -/
def envFailA : String → InvokeOutcome :=
  fun p => if p == "A" then .exc .calledProcessError else .ok (some stOk)

/-- Process behaviour in which the build of `B` is interrupted by the
user and every other build exits with status 0. -/
def behInterruptB : String → ProcBehavior :=
  fun p => if p == "B" then .interrupt else .runs stOk

/-! Properties of the topological sort -/

theorem kahn_perm {edges : List (String × String)} :
    ∀ {fuel : Nat} {remaining L : List String},
      kahn edges fuel remaining = some L → L.Perm remaining := by
  intro fuel
  induction fuel with
  | zero =>
    intro remaining L h
    simp only [kahn] at h
    by_cases he : remaining.isEmpty
    · rw [List.isEmpty_iff] at he
      subst he
      simp at h
      subst h
      exact List.Perm.refl _
    · simp [he] at h
  | succ n ih =>
    intro remaining L h
    simp only [kahn] at h
    by_cases he : remaining.isEmpty
    · rw [List.isEmpty_iff] at he
      subst he
      simp at h
      subst h
      exact List.Perm.refl _
    · rw [if_neg he] at h
      cases hf : remaining.find? (isReady edges remaining) with
      | none => rw [hf] at h; simp at h
      | some a =>
        rw [hf] at h
        simp only [Option.map_eq_some'] at h
        obtain ⟨L', hL', rfl⟩ := h
        have ha : a ∈ remaining := List.mem_of_find?_eq_some hf
        exact ((ih hL').cons a).trans (List.perm_cons_erase ha).symm

theorem kahn_indexOf_lt {edges : List (String × String)} :
    ∀ {fuel : Nat} {remaining L : List String}, kahn edges fuel remaining = some L →
      remaining.Nodup →
      ∀ {u v : String}, (u, v) ∈ edges → u ∈ remaining → v ∈ remaining →
        L.indexOf u < L.indexOf v := by
  intro fuel
  induction fuel with
  | zero =>
    intro remaining L h hnd u v he hu hv
    simp only [kahn] at h
    by_cases hemp : remaining.isEmpty
    · rw [List.isEmpty_iff] at hemp; subst hemp; simp at hu
    · simp [hemp] at h
  | succ n ih =>
    intro remaining L h hnd u v he hu hv
    simp only [kahn] at h
    by_cases hemp : remaining.isEmpty
    · rw [List.isEmpty_iff] at hemp; subst hemp; simp at hu
    · rw [if_neg hemp] at h
      cases hf : remaining.find? (isReady edges remaining) with
      | none => rw [hf] at h; simp at h
      | some a =>
        rw [hf] at h
        simp only [Option.map_eq_some'] at h
        obtain ⟨L', hL', rfl⟩ := h
        have hready : isReady edges remaining a = true := List.find?_some hf
        have hblock : ∀ e ∈ edges, ¬(e.2 = a ∧ e.1 ∈ remaining) := by
          intro e hme
          have h2 := List.all_eq_true.mp hready e hme
          simp at h2
          tauto
        have hva : v ≠ a := by
          intro hva
          exact hblock (u, v) he ⟨hva, hu⟩
        by_cases hua : u = a
        · subst hua
          rw [List.indexOf_cons_self]
          rw [List.indexOf_cons_ne _ (fun hav => hva hav.symm)]
          exact Nat.succ_pos _
        · rw [List.indexOf_cons_ne _ (fun hau => hua hau.symm)]
          rw [List.indexOf_cons_ne _ (fun hav => hva hav.symm)]
          have hu' : u ∈ remaining.erase a := by
            rw [hnd.mem_erase_iff]; exact ⟨hua, hu⟩
          have hv' : v ∈ remaining.erase a := by
            rw [hnd.mem_erase_iff]; exact ⟨hva, hv⟩
          exact Nat.succ_lt_succ (ih hL' (hnd.erase a) he hu' hv')

theorem nodup_indexOf_of_get {l : List String} (hnd : l.Nodup) {j : Nat}
    (hj : j < l.length) {x : String} (hx : l.get ⟨j, hj⟩ = x) : l.indexOf x = j := by
  have hmem : x ∈ l := by rw [← hx]; exact l.get_mem j hj
  have hlt : l.indexOf x < l.length := List.indexOf_lt_length.mpr hmem
  have hget : l.get ⟨l.indexOf x, hlt⟩ = x := List.indexOf_get hlt
  have hfin : (⟨l.indexOf x, hlt⟩ : Fin l.length) = ⟨j, hj⟩ :=
    (hnd.get_inj_iff).mp (by rw [hget, hx])
  exact congrArg Fin.val hfin

theorem indexOf_reverse_flip {l : List String} (hnd : l.Nodup) {u v : String}
    (hu : u ∈ l) (hv : v ∈ l) (h : l.indexOf u < l.indexOf v) :
    l.reverse.indexOf v < l.reverse.indexOf u := by
  have hul : l.indexOf u < l.length := List.indexOf_lt_length.mpr hu
  have hvl : l.indexOf v < l.length := List.indexOf_lt_length.mpr hv
  have hrnd : l.reverse.Nodup := List.nodup_reverse.mpr hnd
  have key : ∀ x : String, x ∈ l →
      l.reverse.indexOf x = l.length - 1 - l.indexOf x := by
    intro x hx
    have hxl : l.indexOf x < l.length := List.indexOf_lt_length.mpr hx
    have hj : l.length - 1 - l.indexOf x < l.reverse.length := by
      rw [List.length_reverse]; omega
    apply nodup_indexOf_of_get hrnd hj
    rw [List.get_eq_getElem]
    rw [List.getElem_reverse]
    have harith : l.length - 1 - (l.length - 1 - l.indexOf x) = l.indexOf x := by omega
    simp only [harith]
    have := List.indexOf_get hxl
    rw [List.get_eq_getElem] at this
    exact this
  rw [key u hu, key v hv]
  omega

/-! Well-formedness is preserved by the planner's graph surgery -/

theorem addNode_edges (g : DiGraph) (n : String) : (addNode g n).edges = g.edges := by
  unfold addNode
  split <;> rfl

theorem addNode_attrs (g : DiGraph) (n : String) : (addNode g n).attrs = g.attrs := by
  unfold addNode
  split <;> rfl

theorem mem_addNode_self (g : DiGraph) (n : String) : n ∈ (addNode g n).nodes := by
  unfold addNode
  split
  · next h => simpa using h
  · simp

theorem mem_addNode_of_mem (g : DiGraph) (n x : String) (h : x ∈ g.nodes) :
    x ∈ (addNode g n).nodes := by
  unfold addNode
  split
  · exact h
  · simp [h]

theorem wf_addNode {g : DiGraph} (h : WF g) (n : String) : WF (addNode g n) := by
  obtain ⟨hnd, he⟩ := h
  constructor
  · unfold addNode
    split
    · exact hnd
    · next hc =>
      rw [List.nodup_append]
      refine ⟨hnd, List.nodup_singleton n, ?_⟩
      rw [List.disjoint_left]
      intro a ha hmem
      simp at hmem
      subst hmem
      simp at hc
      exact hc ha
  · intro e hme
    rw [addNode_edges] at hme
    exact ⟨mem_addNode_of_mem _ _ _ (he e hme).1, mem_addNode_of_mem _ _ _ (he e hme).2⟩

theorem wf_addEdge {g : DiGraph} (h : WF g) (e : String × String) : WF (addEdge g e) := by
  have h2 : WF (addNode (addNode g e.1) e.2) := wf_addNode (wf_addNode h e.1) e.2
  have hmem1 : e.1 ∈ (addNode (addNode g e.1) e.2).nodes :=
    mem_addNode_of_mem _ _ _ (mem_addNode_self g e.1)
  have hmem2 : e.2 ∈ (addNode (addNode g e.1) e.2).nodes :=
    mem_addNode_self _ _
  obtain ⟨hnd, he⟩ := h2
  unfold addEdge
  simp only []
  split
  · exact ⟨hnd, he⟩
  · constructor
    · exact hnd
    · intro e' hme'
      simp at hme'
      cases hme' with
      | inl hin => exact he e' hin
      | inr heq =>
        subst heq
        exact ⟨hmem1, hmem2⟩

theorem wf_foldl_addEdge {t : DiGraph} (h : WF t) :
    ∀ es : List (String × String), WF (es.foldl addEdge t) := by
  intro es
  induction es generalizing t with
  | nil => exact h
  | cons e es ih => exact ih (wf_addEdge h e)

theorem wf_foldl_outer {t : DiGraph} (h : WF t) (graph : DiGraph) :
    ∀ curr : List String,
      WF (curr.foldl (fun t p => (outEdges graph p).foldl addEdge t) t) := by
  intro curr
  induction curr generalizing t with
  | nil => exact h
  | cons p curr ih => exact ih (wf_foldl_addEdge h _)

theorem wf_expandLevels (graph : DiGraph) :
    ∀ (level : Nat) (tmp : DiGraph) (curr : List String),
      WF tmp → WF (expandLevels graph tmp curr level) := by
  intro level
  induction level with
  | zero => intro tmp curr h; exact h
  | succ l ih =>
    intro tmp curr h
    exact ih _ _ (wf_foldl_outer h graph curr)

theorem wf_subgraph {g : DiGraph} (h : WF g) (bunch : List String) : WF (subgraph g bunch) := by
  obtain ⟨hnd, he⟩ := h
  constructor
  · exact hnd.filter _
  · intro e hmem
    simp only [subgraph, List.mem_filter, Bool.and_eq_true] at hmem
    obtain ⟨hme, h1, h2⟩ := hmem
    have hwf := he e hme
    constructor
    · simp only [subgraph, List.mem_filter]
      exact ⟨hwf.1, h1⟩
    · simp only [subgraph, List.mem_filter]
      exact ⟨hwf.2, h2⟩

theorem wf_build_order {graph : DiGraph} (h : WF graph)
    (packages : Option (List String)) (level : Nat) :
    WF (build_order graph packages level).1 := by
  cases packages with
  | none => exact wf_subgraph h _
  | some pkgs => exact wf_expandLevels graph level _ pkgs (wf_subgraph h pkgs)

theorem build_order_snd (graph : DiGraph) (packages : Option (List String)) (level : Nat) :
    (build_order graph packages level).2 =
      (topological_sort (build_order graph packages level).1).map List.reverse := rfl

/-- C1: for every well-formed dependency graph on which the planner's
topological sort succeeds (every acyclic graph), the order returned by
`build_order` places dependencies before dependents: for every stored
edge package → dependency of the planned subgraph whose endpoints are
buildable, the dependency's index in the returned order is strictly
smaller than the package's index. -/
theorem build_order_deps_before_dependents
    (graph : DiGraph) (packages : Option (List String)) (level : Nat)
    (hwf : WF graph) (ord : List String)
    (hord : (build_order graph packages level).2 = some ord)
    (u v : String) (huv : (u, v) ∈ (build_order graph packages level).1.edges)
    (hbu : buildable graph u = true) (hbv : buildable graph v = true) :
    ord.indexOf v < ord.indexOf u := by
  have hwft : WF (build_order graph packages level).1 := wf_build_order hwf packages level
  rw [build_order_snd, Option.map_eq_some'] at hord
  obtain ⟨topo, htopo, hrev⟩ := hord
  have hperm : topo.Perm (build_order graph packages level).1.nodes := kahn_perm htopo
  have hndt : topo.Nodup := hperm.nodup_iff.mpr hwft.1
  have hu : u ∈ (build_order graph packages level).1.nodes := (hwft.2 _ huv).1
  have hv : v ∈ (build_order graph packages level).1.nodes := (hwft.2 _ huv).2
  have hidx : topo.indexOf u < topo.indexOf v :=
    kahn_indexOf_lt htopo hwft.1 huv hu hv
  have := indexOf_reverse_flip hndt (hperm.mem_iff.mpr hu) (hperm.mem_iff.mpr hv) hidx
  rw [hrev] at this
  exact this

/-- Witness for C1: on the concrete two-node graph `gC1` (package `a`
depends on `b`), the returned order is `["b", "a"]` and the dependency
`b` indeed precedes `a`. -/
theorem build_order_deps_before_dependents_witness :
    WF gC1 ∧ List.indexOf "b" ["b", "a"] < List.indexOf "a" ["b", "a"] :=
  ⟨by decide,
   build_order_deps_before_dependents gC1 none 0 (by decide) ["b", "a"] (by decide)
     "a" "b" (by decide) (by decide) (by decide)⟩

theorem chain_append_singleton_indexOf {g : DiGraph} {L : List String}
    (H : ∀ u v : String, (u, v) ∈ g.edges → L.indexOf u < L.indexOf v) :
    ∀ (l : List String) (x t : String), List.Chain (EdgeRel g) x (l ++ [t]) →
      L.indexOf x < L.indexOf t := by
  intro l
  induction l with
  | nil =>
    intro x t h
    rw [List.nil_append, List.chain_cons] at h
    exact H x t h.1
  | cons b l' ih =>
    intro x t h
    rw [List.cons_append, List.chain_cons] at h
    exact (H x b h.1).trans (ih b t h.2)

/-- C5: whenever the planned subgraph contains a dependency cycle, the
planner's topological sort fails with the cycle error (`none` models the
raised `NetworkXUnfeasible`) rather than returning any order. -/
theorem build_order_cycle_error
    (graph : DiGraph) (packages : Option (List String)) (level : Nat)
    (hwf : WF graph) (x : String) (p : List String)
    (hc : IsCycle (build_order graph packages level).1 x p) :
    (build_order graph packages level).2 = none := by
  by_contra h
  obtain ⟨ord, hord⟩ := Option.ne_none_iff_exists'.mp h
  have hwft : WF (build_order graph packages level).1 := wf_build_order hwf packages level
  rw [build_order_snd, Option.map_eq_some'] at hord
  obtain ⟨topo, htopo, _⟩ := hord
  have H : ∀ u v : String, (u, v) ∈ (build_order graph packages level).1.edges →
      topo.indexOf u < topo.indexOf v := by
    intro u v huv
    exact kahn_indexOf_lt htopo hwft.1 huv (hwft.2 _ huv).1 (hwft.2 _ huv).2
  exact lt_irrefl _ (chain_append_singleton_indexOf H p x x hc)

theorem chainB_iff (g : DiGraph) : ∀ (l : List String) (x : String),
    chainB g x l = true ↔ List.Chain (EdgeRel g) x l := by
  intro l
  induction l with
  | nil =>
    intro x
    constructor
    · intro _; exact List.Chain.nil
    · intro _; rfl
  | cons y l ih =>
    intro x
    simp [chainB, List.chain_cons, EdgeRel, ih]

/-- Witness for C5: the two-node cycle `gCyc` makes the planner fail. -/
theorem build_order_cycle_error_witness :
    WF gCyc ∧ IsCycle (build_order gCyc none 0).1 "a" ["b"] ∧
      (build_order gCyc none 0).2 = none := by
  have hcyc : IsCycle (build_order gCyc none 0).1 "a" ["b"] :=
    (chainB_iff _ _ _).mp (by decide)
  exact ⟨by decide, hcyc, build_order_cycle_error gCyc none 0 (by decide) "a" ["b"] hcyc⟩

/-- C10: `dirty(graph)` computes the empty set for every graph — also for
graphs whose nodes carry `dirty=True` in their attribute dictionaries —
because `getattr(n, 'dirty', False)` reads the attribute from the node
name string `n`, which never has one, instead of from the graph's
node-attribute mapping. -/
theorem dirty_always_empty (graph : DiGraph) : dirty graph = [] := by
  simp [dirty, strGetattrDirty]

/-! The build executor -/

theorem buildLoop_cons_autofail (env : String → InvokeOutcome)
    (order : List String) (pkg : String) (rest : List String)
    (failed : List String) (times : List (String × Option PStats))
    (h : order.any (fun p => failed.contains p) = true) :
    buildLoop env order (pkg :: rest) failed times =
      buildLoop env order rest (insertSet failed pkg) times := by
  rw [buildLoop, if_pos h]

theorem buildLoop_cons_cpe (env : String → InvokeOutcome)
    (order : List String) (pkg : String) (rest : List String)
    (failed : List String) (times : List (String × Option PStats))
    (hnf : order.any (fun p => failed.contains p) = false)
    (hpkg : env pkg = InvokeOutcome.exc PkgExcept.calledProcessError) :
    buildLoop env order (pkg :: rest) failed times =
      buildLoop env order rest (insertSet failed pkg) times := by
  rw [buildLoop, if_neg (by rw [hnf]; simp), hpkg]

/-- C3: over the planner's order `["A", "B", "C"]` on the edge-free graph
`gABC` — neither `B` nor `C` declares a dependency on `A` — if building
`A` fails, the coarse global autofail marks both `B` and `C` failed in
the returned report. -/
theorem make_deps_global_autofail (env : String → InvokeOutcome)
    (hA : env "A" = InvokeOutcome.exc PkgExcept.calledProcessError)
    (r : MakeDepsResult) (hr : make_deps gABC none env 0 = some r) :
    "A" ∉ dependsOf gABC "B" ∧ "A" ∉ dependsOf gABC "C" ∧
      "B" ∈ failedSet r ∧ "C" ∈ failedSet r := by
  have h0 : make_deps gABC none env 0 =
      some (buildLoop env ["A", "B", "C"] ["A", "B", "C"] []
        [("A", none), ("B", none), ("C", none)]) := rfl
  have e1 := buildLoop_cons_cpe env ["A", "B", "C"] "A" ["B", "C"] []
    [("A", none), ("B", none), ("C", none)] (by decide) hA
  have e2 := buildLoop_cons_autofail env ["A", "B", "C"] "B" ["C"] (insertSet [] "A")
    [("A", none), ("B", none), ("C", none)] (by decide)
  have e3 := buildLoop_cons_autofail env ["A", "B", "C"] "C" []
    (insertSet (insertSet [] "A") "B")
    [("A", none), ("B", none), ("C", none)] (by decide)
  have hval : make_deps gABC none env 0 =
      some (MakeDepsResult.completed [] ["A", "B", "C"]
        [("A", none), ("B", none), ("C", none)]) := by
    rw [h0, e1, e2, e3]; rfl
  rw [hval] at hr
  injection hr with hr
  subst hr
  exact ⟨by decide, by decide, by decide, by decide⟩

/-- Witness for C3, with every invocation raising `CalledProcessError`. -/
theorem make_deps_global_autofail_witness :
    "A" ∉ dependsOf gABC "B" ∧ "A" ∉ dependsOf gABC "C" ∧
      "B" ∈ failedSet (MakeDepsResult.completed [] ["A", "B", "C"]
        [("A", none), ("B", none), ("C", none)]) ∧
      "C" ∈ failedSet (MakeDepsResult.completed [] ["A", "B", "C"]
        [("A", none), ("B", none), ("C", none)]) :=
  make_deps_global_autofail (fun _ => InvokeOutcome.exc PkgExcept.calledProcessError) rfl
    (MakeDepsResult.completed [] ["A", "B", "C"] [("A", none), ("B", none), ("C", none)])
    (by decide)

/-- C4 (code-bug evidence): the external tool for `A` exits with status 1,
yet the run reports `A` as succeeded with an empty failed set —
`PopenWrapper` records the non-zero `returncode` without raising, so the
executor's `except CalledProcessError` handler never fires. -/
theorem make_deps_nonzero_exit_not_failed :
    make_deps_run gOne none (fun _ => ProcBehavior.runs stFail) false 0 =
      some (MakeDepsResult.completed ["A"] [] [("A", some stFail)]) ∧
    stFail.returncode ≠ 0 := by
  exact ⟨by decide, by decide⟩

/-- C6 (amended): on a `KeyboardInterrupt` during a package's build the
executor stops immediately — the remaining packages `rest` do not
influence the result — and returns only the failed set accumulated so
far, a value without the completed run's report shape. -/
theorem buildLoop_interrupt_returns_failed_only
    (env : String → InvokeOutcome) (order : List String) (pkg : String)
    (rest : List String) (failed : List String)
    (times : List (String × Option PStats))
    (hnf : order.any (fun p => failed.contains p) = false)
    (hI : env pkg = InvokeOutcome.exc PkgExcept.keyboardInterrupt) :
    buildLoop env order (pkg :: rest) failed times = MakeDepsResult.interrupted failed ∧
      isCompletedShape (MakeDepsResult.interrupted failed) = false := by
  constructor
  · rw [buildLoop, if_neg (by rw [hnf]; simp), hI]
  · rfl

/-- Witness for C6 (amended) at a concrete interrupted run. -/
theorem buildLoop_interrupt_returns_failed_only_witness :
    buildLoop (make_pkg behInterruptB false) ["A", "B"] ["B"] []
        [("A", some stOk), ("B", none)] = MakeDepsResult.interrupted [] ∧
      isCompletedShape (MakeDepsResult.interrupted []) = false :=
  buildLoop_interrupt_returns_failed_only (make_pkg behInterruptB false) ["A", "B"] "B" [] []
    [("A", some stOk), ("B", none)] (by decide) (by decide)

/-- C6 counterexample: interrupting the second package of a two-package
run makes `make_deps` return `interrupted []` — a bare failed set — not a
report of the completed run's `(succeeded, failed, stats)` shape, even
though `A` had already been built successfully. -/
theorem make_deps_interrupt_shape_counterexample :
    make_deps_run gTwo none behInterruptB false 0 =
      some (MakeDepsResult.interrupted []) ∧
    (make_deps_run gTwo none behInterruptB false 0).map isCompletedShape = some false := by
  exact ⟨by decide, by decide⟩

/-- C9 (code-bug evidence): a run in which `A` fails (and `B` is then
auto-failed) leaves `None` entries in `build_times`, so the `__main__`
summary loop raises `AttributeError` and the interpreter exits with
status 1 — not with the failed-package count 2; the intended
`sys.exit(len(fail))` is reached only when no entry is `None`, in which
case zero failures do give exit status 0. -/
theorem main_exit_status_on_failures :
    (make_deps gTwo none envFailA 0).map mainBuildExit = some 1 ∧
    (make_deps gTwo none envFailA 0).map (fun r => (failedSet r).length) = some 2 ∧
    mainBuildExit (MakeDepsResult.completed ["A", "B"] []
      [("A", some stOk), ("B", some stOk)]) = 0 := by
  exact ⟨by decide, by decide, by decide⟩

/-! The group coalescer on concrete inputs -/

/-- C7 counterexample: the single group's member list is ordered by batch
processing order — `B`'s group entered the batch first — so the returned
dictionary is not `{"A": ["a1", "a2", "b1", "B"]}`. -/
theorem coalesce_scenario_counterexample :
    coalesce [("A", ["a1", "a2"]), ("B", ["b1"])] 5 ≠ [("A", ["a1", "a2", "b1", "B"])] := by
  decide

/-- C7 (amended): `coalesce({"A": ["a1","a2"], "B": ["b1"]}, 5)` processes
keys in ascending closure-size order `[B, A]`, the cumulative batch size
reaches the target 5 at `A`, and the batch is flushed under `A`, merging
`B`'s closure plus `B` itself while excluding `A`; the merged list
carries `B`'s group first, giving `{"A": ["b1", "B", "a1", "a2"]}`. -/
theorem coalesce_scenario :
    coalesce [("A", ["a1", "a2"]), ("B", ["b1"])] 5 = [("A", ["b1", "B", "a1", "a2"])] := by
  decide

/-- C2 counterexample: with the name `x` shared by the closures of `A` and
`B` and target size 2, each key flushes as its own batch and `x` is
emitted into both output groups, occurring twice in the output. -/
theorem coalesce_partition_counterexample :
    0 < 2 ∧ "x" ∈ namesOf [("A", ["x"]), ("B", ["x"])] ∧
      (namesOf (coalesce [("A", ["x"]), ("B", ["x"])] 2)).count "x" = 2 := by
  exact ⟨by decide, by decide, by decide⟩

/-! The coalescer is a partition on duplicate-free inputs -/

theorem mergeOne_mem {cur : List String} {key : String} {g : List String} {x : String} :
    x ∈ mergeOne cur key g ↔ x ∈ cur ∨ (x ∈ g ∧ x ≠ key) := by
  simp [mergeOne, List.mem_filter]
  tauto

theorem mergeOne_nodup {cur : List String} {key : String} {g : List String}
    (hc : cur.Nodup) (hg : g.Nodup) : (mergeOne cur key g).Nodup := by
  refine List.Nodup.append hc (hg.filter _) ?_
  rw [List.disjoint_left]
  intro a ha hmem
  rw [List.mem_filter] at hmem
  have := hmem.2
  simp at this
  exact this.1 ha

theorem flushBatch_mem :
    ∀ (batch : List (List String)) (cur : List String) (key x : String),
      x ∈ flushBatch cur key batch ↔ x ∈ cur ∨ (x ∈ batch.flatten ∧ x ≠ key) := by
  intro batch
  induction batch with
  | nil => intro cur key x; simp [flushBatch]
  | cons g gs ih =>
    intro cur key x
    have hstep : flushBatch cur key (g :: gs) = flushBatch (mergeOne cur key g) key gs := rfl
    rw [hstep, ih, mergeOne_mem]
    simp only [List.flatten_cons, List.mem_append]
    tauto

theorem flushBatch_nodup :
    ∀ (batch : List (List String)) (cur : List String) (key : String),
      cur.Nodup → (∀ g ∈ batch, g.Nodup) → (flushBatch cur key batch).Nodup := by
  intro batch
  induction batch with
  | nil => intro cur key hc _; exact hc
  | cons g gs ih =>
    intro cur key hc hg
    have hstep : flushBatch cur key (g :: gs) = flushBatch (mergeOne cur key g) key gs := rfl
    rw [hstep]
    exact ih _ _ (mergeOne_nodup hc (hg g (by simp))) (fun g2 hg2 => hg g2 (by simp [hg2]))

theorem lookup_none_iff {β : Type} {m : List (String × β)} {k : String} :
    m.lookup k = none ↔ ∀ kv ∈ m, kv.1 ≠ k := by
  induction m with
  | nil => simp
  | cons kv rest ih =>
    rw [List.lookup_cons]
    by_cases hk : k = kv.1
    · subst hk
      simp
    · have hbeq : (k == kv.1) = false := by simp [hk]
      rw [hbeq]
      simp only []
      rw [ih]
      constructor
      · intro h kv2 hmem
        rcases List.mem_cons.mp hmem with heq | hmem2
        · subst heq; exact fun hc => hk hc.symm
        · exact h kv2 hmem2
      · intro h kv2 hmem2
        exact h kv2 (List.mem_cons_of_mem _ hmem2)

theorem lookup_append_single_none {β : Type} {m : List (String × β)} {k k2 : String}
    {v : β} (h : m.lookup k2 = none) (hne : k2 ≠ k) :
    (m ++ [(k, v)]).lookup k2 = none := by
  rw [lookup_none_iff] at h ⊢
  intro kv hmem
  rcases List.mem_append.mp hmem with hin | hin
  · exact h kv hin
  · rw [List.mem_singleton] at hin
    subst hin
    exact fun hc => hne hc.symm

theorem updateKey_of_none {m : List (String × List String)} {k : String}
    (h : m.lookup k = none) (v : List String) :
    updateKey m k v = m ++ [(k, v)] := by
  unfold updateKey
  rw [h]
  simp

theorem namesOf_append (m m2 : List (String × List String)) :
    namesOf (m ++ m2) = namesOf m ++ namesOf m2 := by
  simp [namesOf]

theorem namesOf_cons (kv : String × List String) (m : List (String × List String)) :
    namesOf (kv :: m) = (kv.1 :: kv.2) ++ namesOf m := rfl

theorem remNames_cons (hi : List (String × List String)) (kc : String × Nat)
    (rest : List (String × Nat)) :
    remNames hi (kc :: rest) = (lookupD hi kc.1 ++ [kc.1]) ++ remNames hi rest := rfl

theorem key_mem_remNames {hi : List (String × List String)} {rest : List (String × Nat)}
    {kc : String × Nat} (h : kc ∈ rest) : kc.1 ∈ remNames hi rest := by
  unfold remNames
  rw [List.mem_flatten]
  exact ⟨lookupD hi kc.1 ++ [kc.1], List.mem_map_of_mem _ h, by simp⟩

theorem nodup_flush_assembly {A G R : List String} {k : String} {flushed : List String}
    (hnd : (A ++ (G ++ R)).Nodup)
    (hkG : k ∈ G) (hfl : ∀ x ∈ flushed, x ∈ G ∧ x ≠ k) (hfnd : flushed.Nodup) :
    (A ++ ((k :: flushed) ++ R)).Nodup := by
  rw [List.nodup_append] at hnd
  obtain ⟨hA, hGR, hAGR⟩ := hnd
  rw [List.nodup_append] at hGR
  obtain ⟨hG, hR, hGR2⟩ := hGR
  rw [List.nodup_append]
  refine ⟨hA, ?_, ?_⟩
  · rw [List.nodup_append]
    refine ⟨?_, hR, ?_⟩
    · rw [List.nodup_cons]
      exact ⟨fun hmem => (hfl k hmem).2 rfl, hfnd⟩
    · rw [List.disjoint_left]
      intro a ha
      rcases List.mem_cons.mp ha with rfl | hmem
      · exact List.disjoint_left.mp hGR2 hkG
      · exact List.disjoint_left.mp hGR2 (hfl a hmem).1
  · rw [List.disjoint_left]
    intro a ha hmem
    have hnG : a ∉ G ++ R := List.disjoint_left.mp hAGR ha
    rw [List.mem_append] at hnG
    push_neg at hnG
    rcases List.mem_append.mp hmem with hin | hin
    · rcases List.mem_cons.mp hin with rfl | hin2
      · exact hnG.1 hkG
      · exact hnG.1 (hfl a hin2).1
    · exact hnG.2 hin

theorem namesOf_nil : namesOf [] = [] := rfl

theorem coalesceAux_spec (hi : List (String × List String)) (t : Nat) :
    ∀ (remaining : List (String × Nat)) (coalesced : List (String × List String))
      (group : List (List String)) (key : String),
      (namesOf coalesced ++ (group.flatten ++ remNames hi remaining)).Nodup →
      (∀ kc ∈ remaining, coalesced.lookup kc.1 = none) →
      (group = [] ∨ (key ∈ group.flatten ∧ coalesced.lookup key = none)) →
      (namesOf (coalesceAux hi t coalesced group key remaining)).Nodup ∧
      ∀ x, x ∈ namesOf (coalesceAux hi t coalesced group key remaining) ↔
        x ∈ namesOf coalesced ∨ x ∈ group.flatten ∨ x ∈ remNames hi remaining := by
  intro remaining
  induction remaining with
  | nil =>
    intro coalesced group key hnd hlook hkey
    rcases hkey with rfl | ⟨hk1, hk2⟩
    · have hres : coalesceAux hi t coalesced [] key [] = coalesced := rfl
      rw [hres]
      constructor
      · exact (List.nodup_append.mp hnd).1
      · intro x
        simp [remNames]
    · have hgne : group.isEmpty = false := by
        cases group with
        | nil => simp at hk1
        | cons a l => rfl
      have hld : lookupD coalesced key = [] := by simp [lookupD, hk2]
      have hres : coalesceAux hi t coalesced group key [] =
          coalesced ++ [(key, flushBatch [] key group)] := by
        simp only [coalesceAux]
        rw [if_neg (by simp [hgne]), hld, updateKey_of_none hk2]
      rw [hres]
      have hnd0 : (namesOf coalesced ++ (group.flatten ++ [])).Nodup := by
        simpa [remNames] using hnd
      have hfl : ∀ x ∈ flushBatch [] key group, x ∈ group.flatten ∧ x ≠ key := by
        intro x hx
        rw [flushBatch_mem] at hx
        rcases hx with hx | hx
        · simp at hx
        · exact hx
      have hGnd : group.flatten.Nodup := by
        have := (List.nodup_append.mp hnd0).2.1
        simpa using this
      have hfnd : (flushBatch [] key group).Nodup :=
        flushBatch_nodup group [] key (by simp) (List.nodup_flatten.mp hGnd).1
      constructor
      · have := nodup_flush_assembly (A := namesOf coalesced) (G := group.flatten)
          (R := []) (k := key) hnd0 hk1 hfl hfnd
        simpa [namesOf_append, namesOf_cons, namesOf_nil] using this
      · intro x
        have hmemN : x ∈ namesOf (coalesced ++ [(key, flushBatch [] key group)]) ↔
            x ∈ namesOf coalesced ∨ x = key ∨ x ∈ flushBatch [] key group := by
          simp [namesOf_append, namesOf_cons, namesOf_nil]
        have hmemF : x ∈ flushBatch [] key group ↔ x ∈ group.flatten ∧ x ≠ key := by
          rw [flushBatch_mem]; simp
        rw [hmemN, hmemF]
        have hrn0 : remNames hi ([] : List (String × Nat)) = [] := rfl
        rw [hrn0]
        constructor
        · rintro (h | h | h)
          · exact Or.inl h
          · exact Or.inr (Or.inl (by rw [h]; exact hk1))
          · exact Or.inr (Or.inl h.1)
        · rintro (h | h | h)
          · exact Or.inl h
          · by_cases hxk : x = key
            · exact Or.inr (Or.inl hxk)
            · exact Or.inr (Or.inr ⟨h, hxk⟩)
          · simp at h
  | cons kc rest ih =>
    intro coalesced group key hnd hlook hkey
    obtain ⟨k, c⟩ := kc
    have hres : coalesceAux hi t coalesced group key ((k, c) :: rest) =
        (if t ≤ ((group ++ [lookupD hi k ++ [k]]).map List.length).sum then
          coalesceAux hi t
            (updateKey coalesced k
              (flushBatch (lookupD coalesced k) k (group ++ [lookupD hi k ++ [k]])))
            [] k rest
        else coalesceAux hi t coalesced (group ++ [lookupD hi k ++ [k]]) k rest) := by
      simp only [coalesceAux]
    rw [hres]
    have hflat : (group ++ [lookupD hi k ++ [k]]).flatten
        = group.flatten ++ (lookupD hi k ++ [k]) := by simp
    have hrn : remNames hi ((k, c) :: rest)
        = (lookupD hi k ++ [k]) ++ remNames hi rest := rfl
    have hlk : coalesced.lookup k = none := hlook (k, c) (by simp)
    have hkmem : k ∈ lookupD hi k ++ [k] := by simp
    have hkG2 : k ∈ group.flatten ++ (lookupD hi k ++ [k]) :=
      List.mem_append_right _ hkmem
    have hnd2 : (namesOf coalesced ++
        ((group.flatten ++ (lookupD hi k ++ [k])) ++ remNames hi rest)).Nodup := by
      rw [hrn] at hnd
      simpa [List.append_assoc] using hnd
    split
    case isTrue hcond =>
      have hld : lookupD coalesced k = [] := by simp [lookupD, hlk]
      rw [hld, updateKey_of_none hlk]
      have hfl : ∀ x ∈ flushBatch [] k (group ++ [lookupD hi k ++ [k]]),
          x ∈ group.flatten ++ (lookupD hi k ++ [k]) ∧ x ≠ k := by
        intro x hx
        rw [flushBatch_mem] at hx
        rcases hx with hx | hx
        · simp at hx
        · rw [hflat] at hx; exact hx
      have hGnd : (group.flatten ++ (lookupD hi k ++ [k])).Nodup := by
        have := (List.nodup_append.mp hnd2).2.1
        exact (List.nodup_append.mp this).1
      have hgnd : ∀ g2 ∈ group ++ [lookupD hi k ++ [k]], g2.Nodup := by
        have hflnd : (group ++ [lookupD hi k ++ [k]]).flatten.Nodup := by
          rw [hflat]; exact hGnd
        exact (List.nodup_flatten.mp hflnd).1
      have hfnd : (flushBatch [] k (group ++ [lookupD hi k ++ [k]])).Nodup :=
        flushBatch_nodup _ [] k (by simp) hgnd
      have hnd3 : (namesOf (coalesced ++
          [(k, flushBatch [] k (group ++ [lookupD hi k ++ [k]]))]) ++
          (List.flatten [] ++ remNames hi rest)).Nodup := by
        have := nodup_flush_assembly (A := namesOf coalesced)
          (G := group.flatten ++ (lookupD hi k ++ [k]))
          (R := remNames hi rest) (k := k) hnd2 hkG2 hfl hfnd
        simpa [namesOf_append, namesOf_cons, namesOf_nil] using this
      have hlook3 : ∀ kc2 ∈ rest,
          (coalesced ++
            [(k, flushBatch [] k (group ++ [lookupD hi k ++ [k]]))]).lookup kc2.1 = none := by
        intro kc2 hmem
        apply lookup_append_single_none (hlook kc2 (by simp [hmem]))
        intro heq
        have h1 : kc2.1 ∈ remNames hi rest := key_mem_remNames hmem
        rw [heq] at h1
        have hGR := List.nodup_append.mp (List.nodup_append.mp hnd2).2.1
        exact (List.disjoint_left.mp hGR.2.2 hkG2) h1
      have hres2 := ih (coalesced ++
        [(k, flushBatch [] k (group ++ [lookupD hi k ++ [k]]))]) [] k hnd3 hlook3 (Or.inl rfl)
      refine ⟨hres2.1, ?_⟩
      intro x
      rw [hres2.2 x, hrn]
      have hmemN : x ∈ namesOf (coalesced ++
          [(k, flushBatch [] k (group ++ [lookupD hi k ++ [k]]))]) ↔
          x ∈ namesOf coalesced ∨ x = k ∨
            x ∈ flushBatch [] k (group ++ [lookupD hi k ++ [k]]) := by
        simp [namesOf_append, namesOf_cons, namesOf_nil]
      have hmemF : x ∈ flushBatch [] k (group ++ [lookupD hi k ++ [k]]) ↔
          x ∈ group.flatten ++ (lookupD hi k ++ [k]) ∧ x ≠ k := by
        rw [flushBatch_mem, hflat]
        simp
      rw [hmemN, hmemF]
      constructor
      · rintro (h | h)
        · rcases h with h | h | h
          · exact Or.inl h
          · refine Or.inr (Or.inr (List.mem_append_left _ ?_))
            rw [h]; exact hkmem
          · rcases List.mem_append.mp h.1 with h2 | h2
            · exact Or.inr (Or.inl h2)
            · exact Or.inr (Or.inr (List.mem_append_left _ h2))
        · rcases h with h | h
          · simp at h
          · exact Or.inr (Or.inr (List.mem_append_right _ h))
      · rintro (h | h | h)
        · exact Or.inl (Or.inl h)
        · by_cases hxk : x = k
          · exact Or.inl (Or.inr (Or.inl hxk))
          · exact Or.inl (Or.inr (Or.inr ⟨List.mem_append_left _ h, hxk⟩))
        · rcases List.mem_append.mp h with h2 | h2
          · by_cases hxk : x = k
            · exact Or.inl (Or.inr (Or.inl hxk))
            · exact Or.inl (Or.inr (Or.inr ⟨List.mem_append_right _ h2, hxk⟩))
          · exact Or.inr (Or.inr h2)
    case isFalse hcond =>
      have hres2 := ih coalesced (group ++ [lookupD hi k ++ [k]]) k
        (by rw [hflat]; exact hnd2)
        (fun kc2 hm => hlook kc2 (by simp [hm]))
        (Or.inr ⟨by rw [hflat]; exact hkG2, hlk⟩)
      refine ⟨hres2.1, ?_⟩
      intro x
      rw [hres2.2 x, hrn, hflat]
      simp only [List.mem_append]
      tauto

theorem key_mem_namesOf {hi : List (String × List String)} {kv : String × List String}
    (h : kv ∈ hi) : kv.1 ∈ namesOf hi := by
  unfold namesOf
  rw [List.mem_flatten]
  exact ⟨kv.1 :: kv.2, List.mem_map_of_mem _ h, by simp⟩

theorem nodupKeys_of_namesOf_nodup :
    ∀ {hi : List (String × List String)}, (namesOf hi).Nodup → (hi.map Prod.fst).Nodup := by
  intro hi
  induction hi with
  | nil => intro _; simp
  | cons kv rest ih =>
    intro h
    rw [namesOf_cons, List.nodup_append] at h
    obtain ⟨h1, h2, h3⟩ := h
    rw [List.map_cons, List.nodup_cons]
    constructor
    · intro hmem
      rcases List.mem_map.mp hmem with ⟨kv2, hkv2, heq⟩
      have hk2 : kv2.1 ∈ namesOf rest := key_mem_namesOf hkv2
      rw [heq] at hk2
      exact (List.disjoint_left.mp h3 (by simp)) hk2
    · exact ih h2

theorem lookup_eq_some_of_nodup_keys :
    ∀ {hi : List (String × List String)}, (hi.map Prod.fst).Nodup →
      ∀ {k : String} {v : List String}, (k, v) ∈ hi → hi.lookup k = some v := by
  intro hi
  induction hi with
  | nil => intro _ k v h; simp at h
  | cons kv rest ih =>
    intro hk k v hmem
    rw [List.map_cons, List.nodup_cons] at hk
    rcases List.mem_cons.mp hmem with heq | hmem2
    · rw [← heq]
      simp [List.lookup_cons]
    · have hne : (k == kv.1) = false := by
        rw [beq_eq_false_iff_ne]
        intro hc
        subst hc
        exact hk.1 (List.mem_map.mpr ⟨(kv.1, v), hmem2, rfl⟩)
      rw [List.lookup_cons, hne]
      exact ih hk.2 hmem2

theorem flatten_map_perm {α β : Type} (l : List α) (f h : α → List β)
    (hp : ∀ a ∈ l, (f a).Perm (h a)) :
    ((l.map f).flatten).Perm ((l.map h).flatten) := by
  induction l with
  | nil => simp
  | cons a l2 ih =>
    simp only [List.map_cons, List.flatten_cons]
    exact (hp a (by simp)).append (ih (fun a2 ha2 => hp a2 (by simp [ha2])))

theorem remNames_insertionSort_perm (hi : List (String × List String))
    (hkeys : (hi.map Prod.fst).Nodup) :
    (remNames hi ((hi.map (fun kv => (kv.1, kv.2.length))).insertionSort
      (fun a b => a.2 ≤ b.2))).Perm (namesOf hi) := by
  have h1 : ((hi.map (fun kv => (kv.1, kv.2.length))).insertionSort
      (fun a b => a.2 ≤ b.2)).Perm (hi.map (fun kv => (kv.1, kv.2.length))) :=
    List.perm_insertionSort _ _
  have h2 : (remNames hi ((hi.map (fun kv => (kv.1, kv.2.length))).insertionSort
      (fun a b => a.2 ≤ b.2))).Perm
      (remNames hi (hi.map (fun kv => (kv.1, kv.2.length)))) := by
    unfold remNames
    exact (h1.map _).flatten
  have h3 : remNames hi (hi.map (fun kv => (kv.1, kv.2.length)))
      = (hi.map (fun kv => lookupD hi kv.1 ++ [kv.1])).flatten := by
    unfold remNames
    rw [List.map_map]
    rfl
  have h4 : ((hi.map (fun kv => lookupD hi kv.1 ++ [kv.1])).flatten).Perm
      ((hi.map (fun kv => kv.1 :: kv.2)).flatten) := by
    apply flatten_map_perm
    intro kv hkv
    have hlv : lookupD hi kv.1 = kv.2 := by
      unfold lookupD
      rw [lookup_eq_some_of_nodup_keys hkeys hkv]
      rfl
    rw [hlv]
    exact List.perm_append_singleton _ _
  rw [h3] at h2
  exact h2.trans h4

/-- C2 (amended): on inputs where no package name occurs twice — the keys
are distinct and each key-with-closure group is duplicate-free and
disjoint from every other group, i.e. the flattened input has no
duplicate — `coalesce` is a set partition for every positive target
size: the names appearing among the output's keys and value lists are
duplicate-free and are exactly those appearing in the input.  (The
counterexample shows the claim fails without that proviso.) -/
theorem coalesce_partition_amended (hi : List (String × List String)) (targetnum : Nat)
    (ht : 0 < targetnum) (hnd : (namesOf hi).Nodup) :
    (namesOf (coalesce hi targetnum)).Nodup ∧
      ∀ x, x ∈ namesOf (coalesce hi targetnum) ↔ x ∈ namesOf hi := by
  have hkeys : (hi.map Prod.fst).Nodup := nodupKeys_of_namesOf_nodup hnd
  have hperm := remNames_insertionSort_perm hi hkeys
  have hres : coalesce hi targetnum =
      coalesceAux hi targetnum [] [] ""
        ((hi.map (fun kv => (kv.1, kv.2.length))).insertionSort (fun a b => a.2 ≤ b.2)) := rfl
  have hspec := coalesceAux_spec hi targetnum
    ((hi.map (fun kv => (kv.1, kv.2.length))).insertionSort (fun a b => a.2 ≤ b.2))
    [] [] ""
    (by simpa [namesOf_nil] using hperm.nodup_iff.mpr hnd)
    (by intro kc hkc; rfl)
    (Or.inl rfl)
  rw [hres]
  refine ⟨hspec.1, ?_⟩
  intro x
  rw [hspec.2 x]
  simp only [namesOf_nil, List.flatten_nil, List.not_mem_nil, false_or]
  exact hperm.mem_iff

/-- Witness for C2 (amended) on a duplicate-free two-key input. -/
theorem coalesce_partition_amended_witness :
    (namesOf (coalesce [("A", ["a1"]), ("B", [])] 1)).Nodup ∧
      ("a1" ∈ namesOf (coalesce [("A", ["a1"]), ("B", [])] 1) ↔
        "a1" ∈ namesOf [("A", ["a1"]), ("B", [])]) :=
  ⟨(coalesce_partition_amended [("A", ["a1"]), ("B", [])] 1 (by decide) (by decide)).1,
   (coalesce_partition_amended [("A", ["a1"]), ("B", [])] 1 (by decide) (by decide)).2 "a1"⟩

/-! The closure walk of the splitter computes exactly the reachable set -/

theorem insertSet_mem {l : List String} {x y : String} :
    y ∈ insertSet l x ↔ y ∈ l ∨ y = x := by
  unfold insertSet
  split
  · next h =>
    constructor
    · exact Or.inl
    · rintro (h2 | rfl)
      · exact h2
      · simpa using h
  · simp

theorem insertSet_nodup {l : List String} {x : String} (h : l.Nodup) :
    (insertSet l x).Nodup := by
  unfold insertSet
  split
  · exact h
  · next hc =>
    rw [List.nodup_append]
    refine ⟨h, List.nodup_singleton x, ?_⟩
    rw [List.disjoint_left]
    intro a ha hmem
    rw [List.mem_singleton] at hmem
    subst hmem
    simp at hc
    exact hc ha

theorem subset_insertSet (l : List String) (x : String) : l ⊆ insertSet l x := by
  intro a ha
  rw [insertSet_mem]
  exact Or.inl ha

theorem mem_insertSet_self (l : List String) (x : String) : x ∈ insertSet l x := by
  rw [insertSet_mem]
  exact Or.inr rfl

theorem mem_successors {g : DiGraph} {s t : String} :
    t ∈ successors g s ↔ (s, t) ∈ g.edges := by
  unfold successors
  rw [List.mem_map]
  constructor
  · rintro ⟨e, he, rfl⟩
    rw [List.mem_filter] at he
    have h1 : e.1 = s := by simpa using he.2
    rw [← h1]
    exact he.1
  · intro hmem
    exact ⟨(s, t), by rw [List.mem_filter]; exact ⟨hmem, by simp⟩, rfl⟩

theorem succIter_subset (g : DiGraph) :
    ∀ (fuel : Nat) (s : String) (nodes : List String), nodes ⊆ succIter g fuel s nodes := by
  intro fuel
  induction fuel with
  | zero => intro s nodes; simp [succIter]
  | succ n ih =>
    intro s nodes
    rw [succIter]
    generalize successors g s = l
    induction l generalizing nodes with
    | nil => simp
    | cons s2 l2 ihl =>
      intro a ha
      rw [List.foldl_cons]
      exact ihl (succIter g n s2 (insertSet nodes s2))
        (ih s2 (insertSet nodes s2) (subset_insertSet nodes s2 ha))

theorem foldl_succIter_subset (g : DiGraph) (n : Nat) :
    ∀ (l : List String) (nodes : List String),
      nodes ⊆ l.foldl (fun acc x => succIter g n x (insertSet acc x)) nodes := by
  intro l
  induction l with
  | nil => intro nodes; simp
  | cons a l2 ihl =>
    intro nodes a2 ha2
    rw [List.foldl_cons]
    exact ihl (succIter g n a (insertSet nodes a))
      (succIter_subset g n a (insertSet nodes a) (subset_insertSet nodes a ha2))

theorem succIter_nodup (g : DiGraph) :
    ∀ (fuel : Nat) (s : String) (nodes : List String),
      nodes.Nodup → (succIter g fuel s nodes).Nodup := by
  intro fuel
  induction fuel with
  | zero => intro s nodes h; simpa [succIter] using h
  | succ n ih =>
    intro s nodes h
    rw [succIter]
    generalize successors g s = l
    induction l generalizing nodes with
    | nil => simpa using h
    | cons s2 l2 ihl =>
      rw [List.foldl_cons]
      exact ihl _ (ih s2 _ (insertSet_nodup h))

theorem reachable1_single {g : DiGraph} {s t : String} (h : (s, t) ∈ g.edges) :
    Reachable1 g s t :=
  ⟨[], List.Chain.cons h List.Chain.nil⟩

theorem reachable1_step {g : DiGraph} {s s2 t : String} (h : (s, s2) ∈ g.edges)
    (h2 : Reachable1 g s2 t) : Reachable1 g s t := by
  obtain ⟨p, hp⟩ := h2
  exact ⟨s2 :: p, List.Chain.cons h hp⟩

theorem succIter_sound (g : DiGraph) :
    ∀ (fuel : Nat) (s : String) (nodes : List String) (x : String),
      x ∈ succIter g fuel s nodes → x ∈ nodes ∨ Reachable1 g s x := by
  intro fuel
  induction fuel with
  | zero => intro s nodes x h; left; simpa [succIter] using h
  | succ n ih =>
    intro s nodes x h
    rw [succIter] at h
    have hsub : ∀ s2 ∈ successors g s, (s, s2) ∈ g.edges :=
      fun s2 hs2 => mem_successors.mp hs2
    revert hsub h
    generalize successors g s = l
    induction l generalizing nodes with
    | nil => intro h _; left; simpa using h
    | cons s2 l2 ihl =>
      intro h hsub
      rw [List.foldl_cons] at h
      rcases ihl (succIter g n s2 (insertSet nodes s2)) h
        (fun s3 hs3 => hsub s3 (by simp [hs3])) with hin | hr
      · rcases ih s2 (insertSet nodes s2) x hin with hin2 | hr2
        · rw [insertSet_mem] at hin2
          rcases hin2 with hin3 | rfl
          · exact Or.inl hin3
          · exact Or.inr (reachable1_single (hsub x (by simp)))
        · exact Or.inr (reachable1_step (hsub s2 (by simp)) hr2)
      · exact Or.inr hr

theorem foldl_succIter_mem (g : DiGraph) (n : Nat) :
    ∀ (l : List String) (nodes : List String) (s2 t : String), s2 ∈ l →
      (∀ acc : List String, t ∈ succIter g n s2 (insertSet acc s2)) →
      t ∈ l.foldl (fun acc x => succIter g n x (insertSet acc x)) nodes := by
  intro l
  induction l with
  | nil => intro nodes s2 t h _; simp at h
  | cons a l2 ihl =>
    intro nodes s2 t hmem hstep
    rw [List.foldl_cons]
    rcases List.mem_cons.mp hmem with rfl | hmem2
    · exact foldl_succIter_subset g n l2 (succIter g n s2 (insertSet nodes s2)) (hstep nodes)
    · exact ihl (succIter g n a (insertSet nodes a)) s2 t hmem2 hstep

theorem succIter_complete (g : DiGraph) :
    ∀ (fuel : Nat) (p : List String) (s t : String) (nodes : List String),
      List.Chain (EdgeRel g) s (p ++ [t]) → (p ++ [t]).length ≤ fuel →
      t ∈ succIter g fuel s nodes := by
  intro fuel
  induction fuel with
  | zero => intro p s t nodes _ hlen; simp at hlen
  | succ n ih =>
    intro p s t nodes hc hlen
    rw [succIter]
    cases p with
    | nil =>
      rw [List.nil_append, List.chain_cons] at hc
      have hmem : t ∈ successors g s := mem_successors.mpr hc.1
      exact foldl_succIter_mem g n (successors g s) nodes t t hmem
        (fun acc => succIter_subset g n t (insertSet acc t) (mem_insertSet_self acc t))
    | cons s2 p2 =>
      rw [List.cons_append, List.chain_cons] at hc
      have hmem : s2 ∈ successors g s := mem_successors.mpr hc.1
      have hlen2 : (p2 ++ [t]).length ≤ n := by
        simp only [List.length_append, List.length_cons] at hlen ⊢
        omega
      exact foldl_succIter_mem g n (successors g s) nodes s2 t hmem
        (fun acc => ih p2 s2 t (insertSet acc s2) hc.2 hlen2)

theorem not_nodup_decomp {l : List String} (h : ¬ l.Nodup) :
    ∃ (x : String) (l1 l2 l3 : List String), l = l1 ++ x :: (l2 ++ x :: l3) := by
  obtain ⟨x, hdup⟩ := List.exists_duplicate_iff_not_nodup.mpr h
  have hsub : [x, x].Sublist l := List.duplicate_iff_sublist.mp hdup
  rw [List.cons_sublist_iff] at hsub
  obtain ⟨r1, r2, hl, hx1, hsub2⟩ := hsub
  rw [List.cons_sublist_iff] at hsub2
  obtain ⟨r3, r4, hr2, hx2, _⟩ := hsub2
  obtain ⟨a, b, hab⟩ := List.append_of_mem hx1
  obtain ⟨c, d, hcd⟩ := List.append_of_mem hx2
  refine ⟨x, a, b ++ c, d ++ r4, ?_⟩
  subst hl hr2 hab hcd
  simp [List.append_assoc]

theorem append_singleton_inj {l l2 : List String} {a b : String}
    (h : l ++ [a] = l2 ++ [b]) : l = l2 ∧ a = b := by
  have h2 := congrArg List.reverse h
  rw [List.reverse_append, List.reverse_append] at h2
  simp at h2
  exact ⟨List.reverse_injective (congrArg List.reverse h2.2).symm ▸ h2.2, h2.1⟩

theorem chain_shortcut {R : String → String → Prop} :
    ∀ (n : Nat) (p : List String) (s t : String), p.length ≤ n →
      List.Chain R s (p ++ [t]) →
      ∃ q : List String, List.Chain R s (q ++ [t]) ∧ (q ++ [t]).Nodup ∧
        q.length ≤ p.length := by
  intro n
  induction n with
  | zero =>
    intro p s t hlen hc
    rw [Nat.le_zero, List.length_eq_zero] at hlen
    subst hlen
    exact ⟨[], hc, by simp, Nat.le_refl 0⟩
  | succ n ih =>
    intro p s t hlen hc
    by_cases hnd : (p ++ [t]).Nodup
    · exact ⟨p, hc, hnd, Nat.le_refl _⟩
    · obtain ⟨x, l1, l2, l3, hdecomp⟩ := not_nodup_decomp hnd
      rw [hdecomp] at hc
      have hsplit1 : List.Chain R s (l1 ++ x :: (l2 ++ x :: l3)) ↔
          List.Chain R s (l1 ++ [x]) ∧ List.Chain R x (l2 ++ x :: l3) := List.chain_split
      have hc2 := hsplit1.mp hc
      have hsplit2 : List.Chain R x (l2 ++ x :: l3) ↔
          List.Chain R x (l2 ++ [x]) ∧ List.Chain R x l3 := List.chain_split
      have hc3 := hsplit2.mp hc2.2
      have hsplit3 : List.Chain R s (l1 ++ x :: l3) ↔
          List.Chain R s (l1 ++ [x]) ∧ List.Chain R x l3 := List.chain_split
      have hglue : List.Chain R s (l1 ++ x :: l3) := hsplit3.mpr ⟨hc2.1, hc3.2⟩
      rcases l3.eq_nil_or_concat with rfl | ⟨l4, z, rfl⟩
      · have hshape : p ++ [t] = (l1 ++ x :: l2) ++ [x] := by
          rw [hdecomp]; simp
        obtain ⟨hp2, ht2⟩ := append_singleton_inj hshape
        subst ht2
        have hlen1 : l1.length ≤ n := by
          have : p.length = l1.length + 1 + l2.length := by
            rw [hp2]; simp; omega
          omega
        obtain ⟨q, hq, hqnd, hqlen⟩ := ih l1 s t hlen1 (by simpa using hglue)
        refine ⟨q, hq, hqnd, ?_⟩
        have : p.length = l1.length + 1 + l2.length := by
          rw [hp2]; simp; omega
        omega
      · have hconc : l4.concat z = l4 ++ [z] := List.concat_eq_append l4 z
        rw [hconc] at hdecomp hglue
        have hshape : p ++ [t] = (l1 ++ x :: l2 ++ x :: l4) ++ [z] := by
          rw [hdecomp]; simp
        obtain ⟨hp2, ht2⟩ := append_singleton_inj hshape
        subst ht2
        have hglue2 : List.Chain R s ((l1 ++ x :: l4) ++ [t]) := by
          have hsh2 : l1 ++ x :: (l4 ++ [t]) = (l1 ++ x :: l4) ++ [t] := by simp
          rw [← hsh2]
          exact hglue
        have hlen1 : (l1 ++ x :: l4).length ≤ n := by
          have hpl : p.length = l1.length + 1 + l2.length + 1 + l4.length := by
            rw [hp2]; simp; omega
          simp only [List.length_append, List.length_cons]
          omega
        obtain ⟨q, hq, hqnd, hqlen⟩ := ih (l1 ++ x :: l4) s t hlen1 hglue2
        refine ⟨q, hq, hqnd, ?_⟩
        have hpl : p.length = l1.length + 1 + l2.length + 1 + l4.length := by
          rw [hp2]; simp; omega
        simp only [List.length_append, List.length_cons] at hqlen
        omega

theorem chain_targets {R : String → String → Prop} :
    ∀ (l : List String) (s : String), List.Chain R s l → ∀ x ∈ l, ∃ y, R y x := by
  intro l
  induction l with
  | nil => intro s _ x hx; simp at hx
  | cons b l2 ih =>
    intro s h x hx
    rw [List.chain_cons] at h
    rcases List.mem_cons.mp hx with rfl | hx2
    · exact ⟨s, h.1⟩
    · exact ih b h.2 x hx2

theorem reachable1_short_path {g : DiGraph} (hwf : WF g) {s t : String}
    (h : Reachable1 g s t) :
    ∃ q, List.Chain (EdgeRel g) s (q ++ [t]) ∧ (q ++ [t]).length ≤ g.nodes.length := by
  obtain ⟨p, hp⟩ := h
  obtain ⟨q, hq, hnd, _⟩ := chain_shortcut p.length p s t (Nat.le_refl _) hp
  refine ⟨q, hq, ?_⟩
  have hsub : (q ++ [t]) ⊆ g.nodes := by
    intro a ha
    obtain ⟨y, hy⟩ := chain_targets (q ++ [t]) s hq a ha
    exact (hwf.2 _ hy).2
  exact (hnd.subperm hsub).length_le

theorem successors_iter_spec {g : DiGraph} (hwf : WF g) (s : String) :
    (successors_iter g s []).Nodup ∧
      ∀ t, t ∈ successors_iter g s [] ↔ Reachable1 g s t := by
  constructor
  · exact succIter_nodup g g.nodes.length s [] (by simp)
  · intro t
    constructor
    · intro h
      rcases succIter_sound g g.nodes.length s [] t h with hin | hr
      · simp at hin
      · exact hr
    · intro hr
      obtain ⟨q, hq, hlen⟩ := reachable1_short_path hwf hr
      exact succIter_complete g g.nodes.length q s t [] hq hlen

theorem splitStep_snd (g : DiGraph) (toposort : List String)
    (st : List String × List (String × List String)) (hi_level : String) :
    (splitStep g toposort st hi_level).2 = st.2 ∨
    (splitStep g toposort st hi_level).2 = st.2 ++
      [(hi_level, (((successors_iter g hi_level []).map
          (fun s => (s, toposort.indexOf s))).insertionSort
            (fun a b => b.2 ≤ a.2)).map (fun x => x.1))] := by
  unfold splitStep
  split
  · exact Or.inl rfl
  · exact Or.inr rfl

theorem split_graph_builds_closure {g : DiGraph} {toposort : List String} :
    ∀ (iter : List String) (st : List String × List (String × List String))
      (k : String) (closure : List String),
      (k, closure) ∈ (iter.foldl (splitStep g toposort) st).2 →
      (k, closure) ∈ st.2 ∨
        closure = (((successors_iter g k []).map
          (fun s => (s, toposort.indexOf s))).insertionSort
            (fun a b => b.2 ≤ a.2)).map (fun x => x.1) := by
  intro iter
  induction iter with
  | nil => intro st k closure h; exact Or.inl h
  | cons hi2 iter2 ih =>
    intro st k closure h
    rw [List.foldl_cons] at h
    rcases ih (splitStep g toposort st hi2) k closure h with hin | hform
    · rcases splitStep_snd g toposort st hi2 with heq | heq
      · rw [heq] at hin
        exact Or.inl hin
      · rw [heq] at hin
        rcases List.mem_append.mp hin with hin2 | hin2
        · exact Or.inl hin2
        · rw [List.mem_singleton, Prod.mk.injEq] at hin2
          obtain ⟨rfl, rfl⟩ := hin2
          exact Or.inr rfl
    · exact Or.inr hform

/-- C8: on every well-formed acyclic graph, each per-representative
closure recorded by `split_graph` (computed via `successors_iter`) is
exactly the duplicate-free set of nodes reachable from the representative
along one or more stored successor edges, and a representative with no
outgoing edges maps to the empty list. -/
theorem split_graph_closure_is_reachable_set
    (g : DiGraph) (hwf : WF g) (hacyc : Acyclic g)
    (builds : List (String × List String)) (hb : split_graph_builds g = some builds)
    (k : String) (closure : List String) (hk : (k, closure) ∈ builds) :
    closure.Nodup ∧ (∀ t, t ∈ closure ↔ Reachable1 g k t) ∧
      (successors g k = [] → closure = []) := by
  unfold split_graph_builds at hb
  cases htopo : topological_sort g with
  | none => rw [htopo] at hb; simp at hb
  | some toposort =>
    rw [htopo] at hb
    simp only [Option.some.injEq] at hb
    subst hb
    rcases split_graph_builds_closure toposort ([], []) k closure hk with hin | hform
    · simp at hin
    · have hperm : closure.Perm (successors_iter g k []) := by
        rw [hform]
        have h1 : (((successors_iter g k []).map
            (fun s => (s, toposort.indexOf s))).insertionSort
              (fun a b => b.2 ≤ a.2)).Perm
            ((successors_iter g k []).map (fun s => (s, toposort.indexOf s))) :=
          List.perm_insertionSort _ _
        have h2 := h1.map (fun x : String × Nat => x.1)
        rw [List.map_map] at h2
        have hid : ((fun x : String × Nat => x.1) ∘ (fun s => (s, toposort.indexOf s)))
            = fun s : String => s := rfl
        rw [hid] at h2
        have h3 : (successors_iter g k []).map (fun s : String => s)
            = successors_iter g k [] := List.map_id' _
        rw [h3] at h2
        exact h2
      have hspec := successors_iter_spec hwf k
      refine ⟨hperm.nodup_iff.mpr hspec.1, ?_, ?_⟩
      · intro t
        rw [hperm.mem_iff]
        exact hspec.2 t
      · intro hsucc
        have hempty : successors_iter g k [] = [] := by
          unfold successors_iter
          cases hlen : g.nodes.length with
          | zero => rfl
          | succ n => rw [succIter, hsucc]; rfl
        rw [List.eq_nil_iff_forall_not_mem]
        intro a ha
        have hmem := hperm.mem_iff.mp ha
        rw [hempty] at hmem
        simp at hmem

theorem acyclic_gC1 : Acyclic gC1 := by
  rintro ⟨x, p, hc⟩
  unfold IsCycle at hc
  obtain ⟨y, hy⟩ := chain_targets (p ++ [x]) x hc x (by simp)
  have hx : x = "b" := by
    simp [EdgeRel, gC1] at hy
    exact hy.2
  cases p with
  | nil =>
    rw [List.nil_append, List.chain_cons] at hc
    have hfirst := hc.1
    rw [hx] at hfirst
    simp [EdgeRel, gC1] at hfirst
  | cons b2 p2 =>
    rw [List.cons_append, List.chain_cons] at hc
    have hfirst := hc.1
    rw [hx] at hfirst
    simp [EdgeRel, gC1] at hfirst

/-- Witness for C8 on the two-node graph `gC1`: the splitter records the
closure `["b"]` for the representative `a`, which is exactly the set of
nodes reachable from `a`. -/
theorem split_graph_closure_is_reachable_set_witness :
    WF gC1 ∧ split_graph_builds gC1 = some [("a", ["b"])] ∧
      (["b"] : List String).Nodup ∧
      ("b" ∈ (["b"] : List String) ↔ Reachable1 gC1 "a" "b") ∧
      (successors gC1 "a" = [] → (["b"] : List String) = []) := by
  have h := split_graph_closure_is_reachable_set gC1 (by decide) acyclic_gC1
    [("a", ["b"])] (by decide) "a" ["b"] (by decide)
  exact ⟨by decide, by decide, h.1, h.2.1 "b", h.2.2⟩
